import Mathlib

/-!
Verification of the mdviewer Markdown rendering core.

This file embeds the hand-rolled Markdown renderer of the repository in
Lean 4: the inline formatter (`formatInlineStyles`), the line-oriented
block scanner (`MarkdownRenderer`), the heading extractor and anchor-id
generator (`generateHeadingId`, `extractHeadings`), and the outline
navigator (`scrollToHeading`).  Strings are modelled as `List Char`
internally (a JS string is a sequence of code points for the purposes of
the functions involved); `String` wrappers are provided at the
boundaries.  JS regular-expression operations are embedded as the
recursive scanning functions they denote on the concrete patterns used
by the source; each definition documents the source construct it
translates.
-/

/-- The backtick character (code point 96), written via `Char.ofNat` so the
    file itself contains backticks only inside string literals. -/
def btk : Char := Char.ofNat 96

/-- Model of the JS `\s` character class / `trim` whitespace set
    (ECMAScript WhiteSpace and LineTerminator code points). -/
def isJsWs (c : Char) : Bool :=
  c.toNat == 32 || c.toNat == 9 || c.toNat == 10 || c.toNat == 13 ||
  c.toNat == 0x0b || c.toNat == 0x0c ||
  c.toNat == 0xa0 || c.toNat == 0x1680 ||
  (0x2000 ≤ c.toNat && c.toNat ≤ 0x200a) ||
  c.toNat == 0x2028 || c.toNat == 0x2029 || c.toNat == 0x202f ||
  c.toNat == 0x205f || c.toNat == 0x3000 || c.toNat == 0xfeff

/-- `InlineSpan`: the tagged inline variants produced by the inline
    formatter (plain text, bold, italic, inline code). -/
inductive InlineSpan where
  | plainText (value : String)
  | bold (value : String)
  | italic (value : String)
  | inlineCode (value : String)
deriving DecidableEq, Repr

/-- Search for the earliest closing single `*` of the italic regex
    `\*(.+?)\*`: returns the (non-newline) characters consumed lazily by
    `.+?` before the closing star, and the remainder after it. -/
def starClose1 : List Char → Option (List Char × List Char)
  | [] => none
  | c :: t =>
    if c = '*' then some ([], t)
    else if c = '\n' then none
    else (starClose1 t).map (fun pr => (c :: pr.1, pr.2))

/-- Search for the earliest closing `**` of the bold regex
    `\*\*(.+?)\*\*`: returns the (non-newline) characters consumed lazily
    by `.+?` before the closing pair, and the remainder after it. -/
def starClose2 : List Char → Option (List Char × List Char)
  | [] => none
  | [_] => none
  | c :: d :: t =>
    if c = '*' then
      if d = '*' then some ([], t)
      else (starClose2 (d :: t)).map (fun pr => (c :: pr.1, pr.2))
    else if c = '\n' then none
    else (starClose2 (d :: t)).map (fun pr => (c :: pr.1, pr.2))

/-- Attempt to match the bold regex `\*\*(.+?)\*\*` at the start of the
    input: two stars, at least one lazily-taken content character
    (`.` does not match a newline), then the earliest closing `**`. -/
def boldTryHere : List Char → Option (List Char × List Char)
  | a :: b :: c :: t =>
    if a = '*' then
      if b = '*' then
        if c = '\n' then none
        else (starClose2 t).map (fun pr => (c :: pr.1, pr.2))
      else none
    else none
  | _ => none

/-- Leftmost match of the bold regex `\*\*(.+?)\*\*` in the input:
    returns `(pre, capture, post)` for the first position where
    `boldTryHere` succeeds, as the JS regex engine does. -/
def boldFirst : List Char → Option (List Char × List Char × List Char)
  | [] => none
  | c :: t =>
    match boldTryHere (c :: t) with
    | some (cap, post) => some ([], cap, post)
    | none => (boldFirst t).map (fun pr => (c :: pr.1, pr.2.1, pr.2.2))

/-- Attempt to match the italic regex `\*(.+?)\*` at the start of the
    input: one star, at least one lazily-taken content character, then
    the earliest closing `*`. -/
def italTryHere : List Char → Option (List Char × List Char)
  | a :: c :: t =>
    if a = '*' then
      if c = '\n' then none
      else (starClose1 t).map (fun pr => (c :: pr.1, pr.2))
    else none
  | _ => none

/-- Leftmost match of the italic regex `\*(.+?)\*`. -/
def italFirst : List Char → Option (List Char × List Char × List Char)
  | [] => none
  | c :: t =>
    match italTryHere (c :: t) with
    | some (cap, post) => some ([], cap, post)
    | none => (italFirst t).map (fun pr => (c :: pr.1, pr.2.1, pr.2.2))

/-- Scan for the closing backtick: the one-or-more negated class takes
    everything up to the next backtick, so the content is the run of
    non-backtick characters before the first backtick (any character,
    including a newline, since the negated class matches newlines). -/
def tickClose : List Char → Option (List Char × List Char)
  | [] => none
  | c :: t =>
    if c = btk then some ([], t)
    else (tickClose t).map (fun pr => (c :: pr.1, pr.2))

/-- Attempt to match the inline-code regex at the start of the input: a
    backtick, a maximal nonempty run of non-backtick characters
    (the greedy one-or-more negated class), then a closing backtick. -/
def codeTryHere : List Char → Option (List Char × List Char)
  | [] => none
  | c :: t =>
    if c = btk then
      match tickClose t with
      | some (cap, post) => if cap = [] then none else some (cap, post)
      | none => none
    else none

/-- Leftmost match of the inline-code regex. -/
def codeFirst : List Char → Option (List Char × List Char × List Char)
  | [] => none
  | c :: t =>
    match codeTryHere (c :: t) with
    | some (cap, post) => some ([], cap, post)
    | none => (codeFirst t).map (fun pr => (c :: pr.1, pr.2.1, pr.2.2))

/-- JS `String.prototype.split` with the bold regex: alternating list of
    plain segments (even indices) and captured groups (odd indices).
    Fuelled recursion; every match consumes at least five characters, so
    `s.length` fuel always suffices. -/
def boldSplitF : Nat → List Char → List (List Char)
  | 0, s => [s]
  | fuel + 1, s =>
    match boldFirst s with
    | none => [s]
    | some (pre, cap, post) => pre :: cap :: boldSplitF fuel post

/-- `text.split` on the bold regex (JS split-with-captures semantics). -/
def boldSplit (s : List Char) : List (List Char) := boldSplitF s.length s

/-- JS split with the italic regex (fuelled). -/
def italSplitF : Nat → List Char → List (List Char)
  | 0, s => [s]
  | fuel + 1, s =>
    match italFirst s with
    | none => [s]
    | some (pre, cap, post) => pre :: cap :: italSplitF fuel post

/-- `text.split` on the italic regex. -/
def italSplit (s : List Char) : List (List Char) := italSplitF s.length s

/-- JS split with the inline-code regex (fuelled). -/
def codeSplitF : Nat → List Char → List (List Char)
  | 0, s => [s]
  | fuel + 1, s =>
    match codeFirst s with
    | none => [s]
    | some (pre, cap, post) => pre :: cap :: codeSplitF fuel post

/-- `text.split` on the inline-code regex. -/
def codeSplit (s : List Char) : List (List Char) := codeSplitF s.length s

/-- The `forEach` with `idx % 2` parity over a split-with-captures
    result: even-indexed segments go through `fe`, odd-indexed captures
    through `fo`. -/
def altProc (fe fo : List Char → List InlineSpan) : List (List Char) → List InlineSpan
  | [] => []
  | [e] => fe e
  | e :: o :: rest => fe e ++ fo o ++ altProc fe fo rest

/-- Third pass of `formatInlineStyles`: italic handling of a pending
    segment.  Odd segments become `Italic` spans; nonempty even segments
    become `PlainText` spans; empty even segments produce no span. -/
def italicSpans (s : List Char) : List InlineSpan :=
  altProc (fun e => if e.isEmpty then [] else [.plainText ⟨e⟩])
    (fun o => [.italic ⟨o⟩]) (italSplit s)

/-- Second pass of `formatInlineStyles`: bold handling of a plain
    segment.  Odd segments become `Bold` spans; nonempty even segments
    go through the italic pass; empty even segments are skipped. -/
def boldSpans (s : List Char) : List InlineSpan :=
  altProc (fun e => if e.isEmpty then [] else italicSpans e)
    (fun o => [.bold ⟨o⟩]) (boldSplit s)

/-- The inline formatter `formatInlineStyles` of the source: split on
    paired backticks first (odd segments become `InlineCode`), then run
    every even segment through the bold pass and, inside it, the italic
    pass. -/
def formatInlineStyles (text : String) : List InlineSpan :=
  altProc (fun e => boldSpans e) (fun o => [.inlineCode ⟨o⟩]) (codeSplit text.data)

/-- Concatenation of the literal text carried by a span sequence. -/
def spanText : InlineSpan → List Char
  | .plainText v => v.data
  | .bold v => v.data
  | .italic v => v.data
  | .inlineCode v => v.data

/-- Concatenation of the literal text of every span, in order. -/
def spansText (l : List InlineSpan) : List Char := (l.map spanText).flatten

/-- The source form a span stands for: its literal text re-wrapped in
    the delimiter characters its pass consumed. -/
def sourceOfSpan : InlineSpan → List Char
  | .plainText v => v.data
  | .bold v => '*' :: '*' :: (v.data ++ ['*', '*'])
  | .italic v => '*' :: (v.data ++ ['*'])
  | .inlineCode v => btk :: (v.data ++ [btk])

/-- Concatenated source forms of a span sequence. -/
def sourceOfSpans (l : List InlineSpan) : List Char := (l.map sourceOfSpan).flatten

/-- ASCII model of JS `String.prototype.toLowerCase`, applied
    pointwise.  (Non-ASCII letters are irrelevant for the heading-id
    pipeline: they are removed by the subsequent word-character filter
    whether or not they are case-mapped.) -/
def lowerChar (c : Char) : Char :=
  if 65 ≤ c.toNat ∧ c.toNat ≤ 90 then Char.ofNat (c.toNat + 32) else c

/-- JS `String.prototype.trim`: drop leading and trailing whitespace. -/
def jsTrim (s : List Char) : List Char :=
  ((s.dropWhile isJsWs).reverse.dropWhile isJsWs).reverse

/-- The JS `\w` character class: ASCII letters, digits and underscore. -/
def isWordChar (c : Char) : Bool :=
  (97 ≤ c.toNat && c.toNat ≤ 122) || (65 ≤ c.toNat && c.toNat ≤ 90) ||
  (48 ≤ c.toNat && c.toNat ≤ 57) || c.toNat == 95

/-- `replace` with the global one-character class regex that removes
    every character that is not a word character, whitespace or a
    hyphen. -/
def stripNonWord (s : List Char) : List Char :=
  s.filter (fun c => isWordChar c || isJsWs c || c == '-')

/-- Global replace of each maximal run of `p`-characters by the single
    character `r` (the JS `replace` with a one-or-more class regex and a
    one-character replacement): the replacement is emitted at the last
    character of each run. -/
def squashRuns (p : Char → Bool) (r : Char) : List Char → List Char
  | [] => []
  | [c] => if p c then [r] else [c]
  | c :: d :: t =>
    if p c then
      (if p d then squashRuns p r (d :: t) else r :: squashRuns p r (d :: t))
    else c :: squashRuns p r (d :: t)

/-- Hyphen test, used by the run-collapsing and edge-stripping steps. -/
def isHyphen (c : Char) : Bool := c == '-'

/-- The leading-edge half of the global regex that deletes one leading
    hyphen: drop the first character when it is a hyphen. -/
def dropLeadHy : List Char → List Char
  | [] => []
  | c :: t => if c = '-' then t else c :: t

/-- The trailing-edge half: drop the last character when it is a
    hyphen. -/
def dropTrailHy (s : List Char) : List Char := (dropLeadHy s.reverse).reverse

/-- `generateHeadingId` of the source: lowercase, trim, strip
    non-word/space/hyphen characters, collapse whitespace runs to
    hyphens, collapse hyphen runs, and strip one leading and one
    trailing hyphen. -/
def generateHeadingId (text : List Char) : List Char :=
  dropTrailHy (dropLeadHy
    (squashRuns isHyphen '-'
      (squashRuns isJsWs '-'
        (stripNonWord (jsTrim (text.map lowerChar))))))

/-- Collapse runs via an explicit in-run flag, emitting the replacement
    at the first character of each run — an independent rendering of the
    spec wording "replace every run of one or more ... with a single
    hyphen", used to state the step-by-step claim. -/
def collapseRunsAux (p : Char → Bool) (r : Char) : Bool → List Char → List Char
  | _, [] => []
  | inRun, c :: t =>
    if p c then
      (if inRun then collapseRunsAux p r true t else r :: collapseRunsAux p r true t)
    else c :: collapseRunsAux p r false t

/-- The six-step id-derivation recipe exactly as the specification words
    it, with the run-collapsing and edge-stripping steps implemented
    independently of the source rendering. -/
def generateHeadingIdSpec (text : List Char) : List Char :=
  dropLeadHy (dropTrailHy
    (collapseRunsAux isHyphen '-' false
      (collapseRunsAux isJsWs '-' false
        (stripNonWord (jsTrim (text.map lowerChar))))))

/-- `BlockNode`: the tagged block-level variants emitted by the
    scanner. -/
inductive BlockNode where
  | heading (level : Nat) (text : String)
  | blockquote (spans : List InlineSpan)
  | listItem (ordered : Bool) (indentLevel : Nat) (spans : List InlineSpan)
  | horizontalRule
  | codeBlock (language : String) (content : String)
  | paragraph (spans : List InlineSpan)
  | blankSpacer
deriving DecidableEq, Repr

/-- The scanner's mutable state: `inCodeBlock`, `codeBlockLines`,
    `codeLanguage`. -/
structure ScanState where
  inCodeBlock : Bool
  codeBlockLines : List (List Char)
  codeLanguage : List Char
deriving DecidableEq, Repr

/-- JS `String.prototype.replace` with a plain-string pattern: replace
    the first occurrence only. -/
def jsReplaceFirstL (s pat repl : List Char) : List Char :=
  if pat.isPrefixOf s then repl ++ s.drop pat.length
  else
    match s with
    | [] => []
    | c :: t => c :: jsReplaceFirstL t pat repl

/-- An unordered-list marker character. -/
def isMarkerChar (c : Char) : Bool := c == '-' || c == '*' || c == '+'

/-- Test/deconstruction of the unordered-list regex: optional leading
    whitespace (maximal, since a marker is never whitespace), one
    marker, one whitespace character; returns the remainder after the
    matched prefix. -/
def uListMatch (l : List Char) : Option (List Char) :=
  match l.dropWhile isJsWs with
  | c :: d :: t => if isMarkerChar c && isJsWs d then some t else none
  | _ => none

/-- Test/deconstruction of the ordered-list regex: optional leading
    whitespace, one or more digits (maximal, since a dot is not a
    digit), a dot, one whitespace character. -/
def oListMatch (l : List Char) : Option (List Char) :=
  let r := l.dropWhile isJsWs
  if (r.takeWhile Char.isDigit).isEmpty then none
  else
    match r.dropWhile Char.isDigit with
    | c :: d :: t => if c == '.' && isJsWs d then some t else none
    | _ => none

/-- The horizontal-rule regex, anchored at both ends of the raw line:
    the whole line is three or more repetitions of one of the three rule
    characters. -/
def isHrLine (l : List Char) : Bool :=
  decide (3 ≤ l.length) &&
    (l.all (fun c => c == '*') || l.all (fun c => c == '-') || l.all (fun c => c == '_'))

/-- First occurrence of the plain separator `sep` in `s`:
    `s = pre ++ sep ++ post`. -/
def strFindSplit (sep s : List Char) : Option (List Char × List Char) :=
  if sep.isPrefixOf s then some ([], s.drop sep.length)
  else
    match s with
    | [] => none
    | c :: t => (strFindSplit sep t).map (fun pr => (c :: pr.1, pr.2))

/-- JS `String.prototype.split` with a plain-string separator
    (fuelled). -/
def splitOnStrF (sep : List Char) : Nat → List Char → List (List Char)
  | 0, s => [s]
  | fuel + 1, s =>
    match strFindSplit sep s with
    | none => [s]
    | some (pre, post) => pre :: splitOnStrF sep fuel post

/-- `quoteText.split` on the two-star separator. -/
def jsSplitStars (s : List Char) : List (List Char) :=
  splitOnStrF ['*', '*'] s.length s

/-- The blockquote branch's inline handling: split the quote text on
    paired `**` only; odd segments become `Bold` spans and every even
    segment stays plain text (no inline-code or italic handling). -/
def quoteSpans (t : List Char) : List InlineSpan :=
  altProc (fun e => [.plainText ⟨e⟩]) (fun o => [.bold ⟨o⟩]) (jsSplitStars t)

/-- The three-backtick fence marker. -/
def fenceMarker : List Char := [btk, btk, btk]

/-- A fence line: the trimmed line starts with three backticks. -/
def isFenceLine (l : List Char) : Bool := fenceMarker.isPrefixOf (jsTrim l)

/-- Language tag captured on fence open: first occurrence of the marker
    removed from the trimmed line, lowercased. -/
def fenceLang (l : List Char) : List Char :=
  (jsReplaceFirstL (jsTrim l) fenceMarker []).map lowerChar

/-- Classification of one line outside a code block (branches 3-9 of the
    scanner: headers, blockquote, lists, horizontal rule, blank spacer,
    paragraph); these branches never touch the scanner state. -/
def classifyLine (line : List Char) : List BlockNode :=
  if ("# ".data).isPrefixOf line then
    [.heading 1 ⟨jsReplaceFirstL line "# ".data []⟩]
  else if ("## ".data).isPrefixOf line then
    [.heading 2 ⟨jsReplaceFirstL line "## ".data []⟩]
  else if ("### ".data).isPrefixOf line then
    [.heading 3 ⟨jsReplaceFirstL line "### ".data []⟩]
  else if ("#### ".data).isPrefixOf line then
    [.heading 4 ⟨jsReplaceFirstL line "#### ".data []⟩]
  else if ("> ".data).isPrefixOf line then
    [.blockquote (quoteSpans (jsReplaceFirstL line "> ".data []))]
  else
    match uListMatch line with
    | some content => [.listItem false (line.findIdx isMarkerChar) (formatInlineStyles ⟨content⟩)]
    | none =>
      match oListMatch line with
      | some content => [.listItem true (line.findIdx Char.isDigit) (formatInlineStyles ⟨content⟩)]
      | none =>
        if isHrLine line then [.horizontalRule]
        else if jsTrim line = [] then [.blankSpacer]
        else if 0 < (jsTrim line).length then [.paragraph (formatInlineStyles ⟨line⟩)]
        else []

/-- `codeBlockLines.join` with newline. -/
def joinNL : List (List Char) → List Char
  | [] => []
  | [l] => l
  | l :: ls => l ++ '\n' :: joinNL ls

/-- One scanner step: fence handling (open/close), code-block line
    accumulation, otherwise per-line classification. -/
def renderLine (st : ScanState) (line : List Char) : ScanState × List BlockNode :=
  if isFenceLine line then
    if st.inCodeBlock = false then
      ({ inCodeBlock := true, codeBlockLines := [], codeLanguage := fenceLang line }, [])
    else
      ({ inCodeBlock := false, codeBlockLines := [], codeLanguage := [] },
       [.codeBlock ⟨st.codeLanguage⟩ ⟨joinNL st.codeBlockLines⟩])
  else if st.inCodeBlock then
    ({ st with codeBlockLines := st.codeBlockLines ++ [line] }, [])
  else (st, classifyLine line)

/-- The scanner's forward pass over the line list, threading the state
    and emitting block nodes in order. -/
def scanLines : ScanState → List (List Char) → ScanState × List BlockNode
  | st, [] => (st, [])
  | st, l :: ls =>
    let p := renderLine st l
    let q := scanLines p.1 ls
    (q.1, p.2 ++ q.2)

/-- JS `content.split` on a newline. -/
def splitNL : List Char → List (List Char)
  | [] => [[]]
  | c :: t =>
    if c = '\n' then [] :: splitNL t
    else
      match splitNL t with
      | h :: r => (c :: h) :: r
      | [] => [[c]]

/-- The `MarkdownRenderer` component: `null` (no nodes) on the empty
    string, otherwise the scan of the newline-split content from the
    initial state. -/
def MarkdownRenderer (content : String) : List BlockNode :=
  if content = "" then []
  else (scanLines ⟨false, [], []⟩ (splitNL content.data)).2

/-- Recognizer for `CodeBlock` nodes. -/
def isCodeBlockNode : BlockNode → Bool
  | .codeBlock _ _ => true
  | _ => false

/-- Recognizer for `Heading` nodes. -/
def isHeadingNode : BlockNode → Bool
  | .heading _ _ => true
  | _ => false

/-- `HeadingEntry`: text, level and derived anchor id. -/
structure HeadingEntry where
  text : String
  level : Nat
  id : String
deriving DecidableEq, Repr

/-- Count the leading hash run (the greedy `#`-counted group can only
    match the whole run, since a shorter take leaves a hash where the
    following whitespace is required). -/
def countHashes : List Char → Nat × List Char
  | [] => (0, [])
  | c :: t =>
    if c = '#' then
      let pr := countHashes t
      (pr.1 + 1, pr.2)
    else (0, c :: t)

/-- One attempt of the heading regex (hashes, one-or-more whitespace,
    one-or-more non-newline characters, end of line) at a line-start
    position, with the exact greedy/backtracking behaviour of the JS
    engine: the whitespace run is taken maximally; when only whitespace
    remains to the end of input, the engine backtracks so that the
    capture becomes the last non-newline whitespace character.  Returns
    the level, the captured text and the remainder after the match. -/
def headingMatchAt (s : List Char) : Option (Nat × List Char × List Char) :=
  let pr := countHashes s
  let r := pr.1
  let s1 := pr.2
  if 1 ≤ r ∧ r ≤ 3 then
    match s1 with
    | c :: _ =>
      if isJsWs c then
        match s1.dropWhile isJsWs with
        | c2 :: rest2 =>
          some (r, (c2 :: rest2).takeWhile (fun d => d ≠ '\n'),
                (c2 :: rest2).dropWhile (fun d => d ≠ '\n'))
        | [] =>
          let revd := (s1.drop 1).reverse
          match revd.dropWhile (fun d => d == '\n') with
          | [] => none
          | ch :: _ => some (r, [ch], (revd.takeWhile (fun d => d == '\n')).reverse)
      else none
    | [] => none
  else none

/-- Advance past the current line: drop up to and including the next
    newline. -/
def skipLine (s : List Char) : List Char :=
  match s.dropWhile (fun c => c ≠ '\n') with
  | _ :: t => t
  | [] => []

/-- `matchAll` with the multiline heading regex: try the anchored match
    at each line start, resuming after the end of each match (fuelled;
    every step consumes at least one character). -/
def extractAuxF : Nat → List Char → List (Nat × List Char)
  | 0, _ => []
  | fuel + 1, s =>
    match s with
    | [] => []
    | _ :: _ =>
      match headingMatchAt s with
      | some (lvl, txt, rest) => (lvl, txt) :: extractAuxF fuel (skipLine rest)
      | none => extractAuxF fuel (skipLine s)

/-- The Heading Extractor of `FileViewer`: all heading matches over the
    raw content, each with its derived anchor id. -/
def extractHeadings (content : String) : List HeadingEntry :=
  (extractAuxF content.data.length content.data).map
    (fun pr => { text := ⟨pr.2⟩, level := pr.1, id := ⟨generateHeadingId pr.2⟩ })

/-- The id attribute carried by the rendered element of a block node:
    none of the elements the renderer emits (h1-h4, blockquote, list
    item, rule, code block wrapper, paragraph, spacer) is given an `id`
    prop by the source. -/
def elementId : BlockNode → Option String
  | .heading _ _ => none
  | .blockquote _ => none
  | .listItem _ _ _ => none
  | .horizontalRule => none
  | .codeBlock _ _ => none
  | .paragraph _ => none
  | .blankSpacer => none

/-- `document.getElementById` restricted to the renderer's output: the
    first rendered node whose id attribute is the target. -/
def lookupById (ns : List BlockNode) (target : String) : Option BlockNode :=
  ns.find? (fun n => elementId n == some target)

/-- `scrollToHeading`: when the id resolves, scroll and set the active
    heading id; otherwise leave the state unchanged. -/
def scrollToHeading (ns : List BlockNode) (active target : String) : String :=
  match lookupById ns target with
  | some _ => target
  | none => active

/-- Interleave the even segments and odd captures of a
    split-with-captures list back together, re-inserting the delimiter
    `d` around each capture. -/
def altJoinD (d : List Char) : List (List Char) → List Char
  | [] => []
  | [e] => e
  | e :: o :: r => e ++ d ++ o ++ d ++ altJoinD d r

theorem dropWhile_head_false (p : Char → Bool) :
    ∀ l d r, List.dropWhile p l = d :: r → p d = false := by
  intro l
  induction l with
  | nil => intro d r h; simp at h
  | cons c t ih =>
    intro d r h
    by_cases hc : p c
    · rw [List.dropWhile_cons_of_pos hc] at h; exact ih d r h
    · rw [List.dropWhile_cons_of_neg hc] at h
      obtain ⟨rfl, rfl⟩ := List.cons.inj h
      exact Bool.eq_false_iff.mpr hc

theorem starClose1_eq : ∀ l a b : List Char, starClose1 l = some (a, b) →
    l = a ++ '*' :: b := by
  intro l
  induction l with
  | nil => intro a b h; simp [starClose1] at h
  | cons c t ih =>
    intro a b h
    by_cases hc : c = '*'
    · simp only [starClose1, if_pos hc, Option.some.injEq, Prod.mk.injEq] at h
      obtain ⟨h1, h2⟩ := h
      subst h1; subst h2; simp [hc]
    · by_cases hn : c = '\n'
      · simp [starClose1, hc, hn] at h
      · simp only [starClose1, if_neg hc, if_neg hn, Option.map_eq_some'] at h
        obtain ⟨⟨a', b'⟩, hab, hmk⟩ := h
        simp only [Prod.mk.injEq] at hmk
        obtain ⟨h1, h2⟩ := hmk
        subst h2
        rw [← h1]
        simpa using ih _ _ hab

theorem starClose2_eq : ∀ l a b : List Char, starClose2 l = some (a, b) →
    l = a ++ '*' :: '*' :: b := by
  intro l
  induction l with
  | nil => intro a b h; simp [starClose2] at h
  | cons c t ih =>
    intro a b h
    cases t with
    | nil => simp [starClose2] at h
    | cons d t' =>
      by_cases hc : c = '*'
      · subst hc
        by_cases hd : d = '*'
        · subst hd
          simp [starClose2] at h
          rcases h with ⟨rfl, rfl⟩
          simp
        · rcases hrec : starClose2 (d :: t') with _ | ⟨a', b'⟩
          · simp [starClose2, hd, hrec] at h
          · simp [starClose2, hd, hrec] at h
            rcases h with ⟨rfl, rfl⟩
            simpa using ih _ _ hrec
      · by_cases hn : c = '\n'
        · simp [starClose2, hc, hn] at h
        · rcases hrec : starClose2 (d :: t') with _ | ⟨a', b'⟩
          · simp [starClose2, hc, hn, hrec] at h
          · simp [starClose2, hc, hn, hrec] at h
            rcases h with ⟨rfl, rfl⟩
            simpa using ih _ _ hrec

theorem tickClose_eq : ∀ l a b : List Char, tickClose l = some (a, b) →
    l = a ++ btk :: b := by
  intro l
  induction l with
  | nil => intro a b h; simp [tickClose] at h
  | cons c t ih =>
    intro a b h
    by_cases hc : c = btk
    · subst hc
      simp [tickClose] at h
      rcases h with ⟨rfl, rfl⟩
      simp
    · rcases hrec : tickClose t with _ | ⟨a', b'⟩
      · simp [tickClose, hc, hrec] at h
      · simp [tickClose, hc, hrec] at h
        rcases h with ⟨rfl, rfl⟩
        simpa using ih _ _ hrec

theorem boldTryHere_eq : ∀ s cap post : List Char, boldTryHere s = some (cap, post) →
    s = '*' :: '*' :: cap ++ '*' :: '*' :: post ∧ cap ≠ [] := by
  intro s cap post h
  match s with
  | [] => simp [boldTryHere] at h
  | [a] => simp [boldTryHere] at h
  | [a, b] => simp [boldTryHere] at h
  | a :: b :: c :: t =>
    by_cases ha : a = '*'
    · subst ha
      by_cases hb : b = '*'
      · subst hb
        by_cases hcn : c = '\n'
        · simp [boldTryHere, hcn] at h
        · rcases hrec : starClose2 t with _ | ⟨a', b'⟩
          · simp [boldTryHere, hcn, hrec] at h
          · simp [boldTryHere, hcn, hrec] at h
            rcases h with ⟨rfl, rfl⟩
            have := starClose2_eq _ _ _ hrec
            subst this
            simp
      · simp [boldTryHere, hb] at h
    · simp [boldTryHere, ha] at h

theorem italTryHere_eq : ∀ s cap post : List Char, italTryHere s = some (cap, post) →
    s = '*' :: cap ++ '*' :: post ∧ cap ≠ [] := by
  intro s cap post h
  match s with
  | [] => simp [italTryHere] at h
  | [a] => simp [italTryHere] at h
  | a :: c :: t =>
    by_cases ha : a = '*'
    · subst ha
      by_cases hcn : c = '\n'
      · simp [italTryHere, hcn] at h
      · rcases hrec : starClose1 t with _ | ⟨a', b'⟩
        · simp [italTryHere, hcn, hrec] at h
        · simp [italTryHere, hcn, hrec] at h
          rcases h with ⟨rfl, rfl⟩
          have := starClose1_eq _ _ _ hrec
          subst this
          simp
    · simp [italTryHere, ha] at h

theorem codeTryHere_eq : ∀ s cap post : List Char, codeTryHere s = some (cap, post) →
    s = btk :: cap ++ btk :: post ∧ cap ≠ [] := by
  intro s cap post h
  match s with
  | [] => simp [codeTryHere] at h
  | c :: t =>
    by_cases hc : c = btk
    · subst hc
      rcases htc : tickClose t with _ | ⟨a', b'⟩
      · simp [codeTryHere, htc] at h
      · by_cases hemp : a' = []
        · simp [codeTryHere, htc, hemp] at h
        · simp [codeTryHere, htc, hemp] at h
          rcases h with ⟨rfl, rfl⟩
          have := tickClose_eq _ _ _ htc
          subst this
          exact ⟨rfl, hemp⟩
    · simp [codeTryHere, hc] at h

theorem boldFirst_eq : ∀ s pre cap post : List Char, boldFirst s = some (pre, cap, post) →
    s = pre ++ '*' :: '*' :: cap ++ '*' :: '*' :: post ∧ cap ≠ [] := by
  intro s
  induction s with
  | nil => intro pre cap post h; simp [boldFirst] at h
  | cons c t ih =>
    intro pre cap post h
    rcases htry : boldTryHere (c :: t) with _ | ⟨cap', post'⟩
    · rcases hrec : boldFirst t with _ | ⟨⟨pre', cap'', post''⟩⟩
      · simp [boldFirst, htry, hrec] at h
      · simp [boldFirst, htry, hrec] at h
        rcases h with ⟨rfl, rfl, rfl⟩
        obtain ⟨he, hne⟩ := ih _ _ _ hrec
        exact ⟨by simp [he], hne⟩
    · simp [boldFirst, htry] at h
      rcases h with ⟨rfl, rfl, rfl⟩
      obtain ⟨he, hne⟩ := boldTryHere_eq _ _ _ htry
      exact ⟨by simpa using he, hne⟩

theorem italFirst_eq : ∀ s pre cap post : List Char, italFirst s = some (pre, cap, post) →
    s = pre ++ '*' :: cap ++ '*' :: post ∧ cap ≠ [] := by
  intro s
  induction s with
  | nil => intro pre cap post h; simp [italFirst] at h
  | cons c t ih =>
    intro pre cap post h
    rcases htry : italTryHere (c :: t) with _ | ⟨cap', post'⟩
    · rcases hrec : italFirst t with _ | ⟨⟨pre', cap'', post''⟩⟩
      · simp [italFirst, htry, hrec] at h
      · simp [italFirst, htry, hrec] at h
        rcases h with ⟨rfl, rfl, rfl⟩
        obtain ⟨he, hne⟩ := ih _ _ _ hrec
        exact ⟨by simp [he], hne⟩
    · simp [italFirst, htry] at h
      rcases h with ⟨rfl, rfl, rfl⟩
      obtain ⟨he, hne⟩ := italTryHere_eq _ _ _ htry
      exact ⟨by simpa using he, hne⟩

theorem codeFirst_eq : ∀ s pre cap post : List Char, codeFirst s = some (pre, cap, post) →
    s = pre ++ btk :: cap ++ btk :: post ∧ cap ≠ [] := by
  intro s
  induction s with
  | nil => intro pre cap post h; simp [codeFirst] at h
  | cons c t ih =>
    intro pre cap post h
    rcases htry : codeTryHere (c :: t) with _ | ⟨cap', post'⟩
    · rcases hrec : codeFirst t with _ | ⟨⟨pre', cap'', post''⟩⟩
      · simp [codeFirst, htry, hrec] at h
      · simp [codeFirst, htry, hrec] at h
        rcases h with ⟨rfl, rfl, rfl⟩
        obtain ⟨he, hne⟩ := ih _ _ _ hrec
        exact ⟨by simp [he], hne⟩
    · simp [codeFirst, htry] at h
      rcases h with ⟨rfl, rfl, rfl⟩
      obtain ⟨he, hne⟩ := codeTryHere_eq _ _ _ htry
      exact ⟨by simpa using he, hne⟩

theorem boldFirst_post_lt {s pre cap post : List Char}
    (h : boldFirst s = some (pre, cap, post)) : post.length < s.length := by
  obtain ⟨he, _⟩ := boldFirst_eq _ _ _ _ h
  subst he
  simp
  omega

theorem italFirst_post_lt {s pre cap post : List Char}
    (h : italFirst s = some (pre, cap, post)) : post.length < s.length := by
  obtain ⟨he, _⟩ := italFirst_eq _ _ _ _ h
  subst he
  simp
  omega

theorem codeFirst_post_lt {s pre cap post : List Char}
    (h : codeFirst s = some (pre, cap, post)) : post.length < s.length := by
  obtain ⟨he, _⟩ := codeFirst_eq _ _ _ _ h
  subst he
  simp
  omega

theorem boldSplitF_join : ∀ fuel s, s.length ≤ fuel →
    altJoinD ['*', '*'] (boldSplitF fuel s) = s := by
  intro fuel
  induction fuel with
  | zero => intro s h; simp [boldSplitF, altJoinD]
  | succ n ih =>
    intro s h
    rcases hf : boldFirst s with _ | ⟨⟨pre, cap, post⟩⟩
    · simp [boldSplitF, hf, altJoinD]
    · have hlt := boldFirst_post_lt hf
      obtain ⟨he, _⟩ := boldFirst_eq _ _ _ _ hf
      simp only [boldSplitF, hf, altJoinD]
      rw [ih post (by omega)]
      simp [he]

theorem italSplitF_join : ∀ fuel s, s.length ≤ fuel →
    altJoinD ['*'] (italSplitF fuel s) = s := by
  intro fuel
  induction fuel with
  | zero => intro s h; simp [italSplitF, altJoinD]
  | succ n ih =>
    intro s h
    rcases hf : italFirst s with _ | ⟨⟨pre, cap, post⟩⟩
    · simp [italSplitF, hf, altJoinD]
    · have hlt := italFirst_post_lt hf
      obtain ⟨he, _⟩ := italFirst_eq _ _ _ _ hf
      simp only [italSplitF, hf, altJoinD]
      rw [ih post (by omega)]
      simp [he]

theorem codeSplitF_join : ∀ fuel s, s.length ≤ fuel →
    altJoinD [btk] (codeSplitF fuel s) = s := by
  intro fuel
  induction fuel with
  | zero => intro s h; simp [codeSplitF, altJoinD]
  | succ n ih =>
    intro s h
    rcases hf : codeFirst s with _ | ⟨⟨pre, cap, post⟩⟩
    · simp [codeSplitF, hf, altJoinD]
    · have hlt := codeFirst_post_lt hf
      obtain ⟨he, _⟩ := codeFirst_eq _ _ _ _ hf
      simp only [codeSplitF, hf, altJoinD]
      rw [ih post (by omega)]
      simp [he]

theorem sourceOfSpans_append (x y : List InlineSpan) :
    sourceOfSpans (x ++ y) = sourceOfSpans x ++ sourceOfSpans y := by
  simp [sourceOfSpans]

theorem sourceOfSpans_altProc (d : List Char) (fe fo : List Char → List InlineSpan)
    (hfe : ∀ e, sourceOfSpans (fe e) = e)
    (hfo : ∀ o, sourceOfSpans (fo o) = d ++ o ++ d) :
    ∀ n (l : List (List Char)), l.length ≤ n →
      sourceOfSpans (altProc fe fo l) = altJoinD d l := by
  intro n
  induction n with
  | zero =>
    intro l h
    obtain rfl := List.length_eq_zero.mp (Nat.le_zero.mp h)
    simp [altProc, altJoinD, sourceOfSpans]
  | succ n ih =>
    intro l h
    match l with
    | [] => simp [altProc, altJoinD, sourceOfSpans]
    | [e] => simp [altProc, altJoinD, hfe]
    | e :: o :: r =>
      simp only [altProc, altJoinD]
      rw [sourceOfSpans_append, sourceOfSpans_append, hfe, hfo]
      rw [ih r (by simp at h; omega)]
      simp

theorem italicSpans_source (s : List Char) : sourceOfSpans (italicSpans s) = s := by
  unfold italicSpans
  rw [sourceOfSpans_altProc ['*'] _ _
    (fun e => by
      by_cases he : e.isEmpty
      · simp [he, sourceOfSpans, List.isEmpty_iff.mp he]
      · simp [he, sourceOfSpans, sourceOfSpan])
    (fun o => by simp [sourceOfSpans, sourceOfSpan])
    (italSplit s).length _ le_rfl]
  exact italSplitF_join s.length s le_rfl

theorem boldSpans_source (s : List Char) : sourceOfSpans (boldSpans s) = s := by
  unfold boldSpans
  rw [sourceOfSpans_altProc ['*', '*'] _ _
    (fun e => by
      by_cases he : e.isEmpty
      · simp [he, sourceOfSpans, List.isEmpty_iff.mp he]
      · simp [he, italicSpans_source])
    (fun o => by simp [sourceOfSpans, sourceOfSpan])
    (boldSplit s).length _ le_rfl]
  exact boldSplitF_join s.length s le_rfl

/-- C1 (counterexample): for the line consisting of an inline code span,
    concatenating the literal text values of the emitted spans does not
    reproduce the original line — the delimiter backticks are lost. -/
theorem inline_concat_counterexample :
    formatInlineStyles "`x`" = [.inlineCode "x"] ∧
    spansText (formatInlineStyles "`x`") ≠ ("`x`").data := by decide

/-- C1 (amended): for every input line, concatenating the source forms
    of the emitted spans — each span's literal text re-wrapped in the
    delimiter characters its pass consumed (backticks around
    `InlineCode`, double stars around `Bold`, single stars around
    `Italic`) — reproduces the original line exactly, with no characters
    gained or lost; equivalently, the concatenated literal text equals
    the original line with exactly the matched delimiter characters
    removed. -/
theorem inline_source_roundtrip (text : String) :
    sourceOfSpans (formatInlineStyles text) = text.data := by
  unfold formatInlineStyles
  rw [sourceOfSpans_altProc [btk] _ _
    (fun e => boldSpans_source e)
    (fun o => by simp [sourceOfSpans, sourceOfSpan])
    (codeSplit text.data).length _ le_rfl]
  exact codeSplitF_join text.data.length text.data le_rfl

/-- C2: the inline formatter resolves the three fixed passes in
    precedence order (code, then bold, then italic on the remaining
    non-code segments), so the mixed scenario line produces exactly the
    specified span sequence. -/
theorem inline_mixed_scenario :
    formatInlineStyles "Use `x` and **bold** and *italic*." =
      [.plainText "Use ", .inlineCode "x", .plainText " and ", .bold "bold",
       .plainText " and ", .italic "italic", .plainText "."] := by decide

theorem collapseRunsAux_true_drop (p : Char → Bool) (r : Char) :
    ∀ s, collapseRunsAux p r true s = collapseRunsAux p r false (s.dropWhile p) := by
  intro s
  induction s with
  | nil => rfl
  | cons c t ih =>
    by_cases hp : p c
    · rw [List.dropWhile_cons_of_pos hp]
      simpa [collapseRunsAux, hp] using ih
    · rw [List.dropWhile_cons_of_neg hp]
      simp [collapseRunsAux, hp]

theorem squashRuns_eq_collapse (p : Char → Bool) (r : Char) :
    ∀ s, squashRuns p r s = collapseRunsAux p r false s := by
  intro s
  induction s with
  | nil => rfl
  | cons c t ih =>
    cases t with
    | nil => by_cases hp : p c <;> simp [squashRuns, collapseRunsAux, hp]
    | cons d t' =>
      by_cases hp : p c
      · by_cases hd : p d
        · have e1 : squashRuns p r (c :: d :: t') = squashRuns p r (d :: t') := by
            simp [squashRuns, hp, hd]
          rw [e1, ih]
          simp [collapseRunsAux, hp, hd]
        · have e1 : squashRuns p r (c :: d :: t') = r :: squashRuns p r (d :: t') := by
            simp [squashRuns, hp, hd]
          rw [e1, ih]
          simp [collapseRunsAux, hp, hd]
      · have e1 : squashRuns p r (c :: d :: t') = c :: squashRuns p r (d :: t') := by
          simp [squashRuns, hp]
        rw [e1, ih]
        simp [collapseRunsAux, hp]

theorem dropHy_comm (s : List Char) :
    dropTrailHy (dropLeadHy s) = dropLeadHy (dropTrailHy s) := by
  rcases s with _ | ⟨c, t⟩
  · rfl
  · rcases t.eq_nil_or_concat with rfl | ⟨mid, d, rfl⟩
    · by_cases hc : c = '-' <;> simp [dropLeadHy, dropTrailHy, hc]
    · by_cases hc : c = '-' <;> by_cases hd : d = '-' <;>
        simp [dropLeadHy, dropTrailHy, hc, hd, List.reverse_append]

/-- C3: for every heading text, the source's derived anchor id equals
    the six-step recipe applied in order: lowercase, trim, remove
    non-word/space/hyphen characters, collapse whitespace runs to single
    hyphens, collapse hyphen runs, strip one leading and one trailing
    hyphen. -/
theorem headingId_spec_steps (text : List Char) :
    generateHeadingId text = generateHeadingIdSpec text := by
  unfold generateHeadingId generateHeadingIdSpec
  rw [squashRuns_eq_collapse isJsWs, squashRuns_eq_collapse isHyphen, dropHy_comm]

theorem toNat_ofNat_of_lt {n : Nat} (h : n < 55296) : (Char.ofNat n).toNat = n := by
  have hv : n.isValidChar := Or.inl h
  rw [Char.ofNat, dif_pos hv]
  rfl

theorem lowerChar_not_upper (c : Char) :
    ¬(65 ≤ (lowerChar c).toNat ∧ (lowerChar c).toNat ≤ 90) := by
  unfold lowerChar
  by_cases h : 65 ≤ c.toNat ∧ c.toNat ≤ 90
  · rw [if_pos h]
    rw [toNat_ofNat_of_lt (by omega)]
    omega
  · rw [if_neg h]
    exact h

theorem mem_squashRuns (p : Char → Bool) (r : Char) :
    ∀ s c, c ∈ squashRuns p r s → c = r ∨ (c ∈ s ∧ p c = false) := by
  intro s
  induction s with
  | nil => simp [squashRuns]
  | cons a t ih =>
    intro c hc
    cases t with
    | nil =>
      by_cases hp : p a
      · simp [squashRuns, hp] at hc
        exact Or.inl hc
      · simp [squashRuns, hp] at hc
        subst hc
        exact Or.inr ⟨by simp, by simpa using hp⟩
    | cons d t' =>
      by_cases hp : p a
      · by_cases hd : p d
        · rw [show squashRuns p r (a :: d :: t') = squashRuns p r (d :: t') by
            simp [squashRuns, hp, hd]] at hc
          rcases ih c hc with h | ⟨h1, h2⟩
          · exact Or.inl h
          · exact Or.inr ⟨List.mem_cons_of_mem _ h1, h2⟩
        · rw [show squashRuns p r (a :: d :: t') = r :: squashRuns p r (d :: t') by
            simp [squashRuns, hp, hd]] at hc
          rcases List.mem_cons.mp hc with rfl | hc'
          · exact Or.inl rfl
          · rcases ih c hc' with h | ⟨h1, h2⟩
            · exact Or.inl h
            · exact Or.inr ⟨List.mem_cons_of_mem _ h1, h2⟩
      · rw [show squashRuns p r (a :: d :: t') = a :: squashRuns p r (d :: t') by
          simp [squashRuns, hp]] at hc
        rcases List.mem_cons.mp hc with rfl | hc'
        · exact Or.inr ⟨by simp, by simpa using hp⟩
        · rcases ih c hc' with h | ⟨h1, h2⟩
          · exact Or.inl h
          · exact Or.inr ⟨List.mem_cons_of_mem _ h1, h2⟩

theorem mem_squashRuns_of (p : Char → Bool) (r : Char) :
    ∀ s c, p c = false → c ∈ s → c ∈ squashRuns p r s := by
  intro s
  induction s with
  | nil => simp
  | cons a t ih =>
    intro c hpc hc
    cases t with
    | nil =>
      rcases List.mem_singleton.mp hc with rfl
      simp [squashRuns, hpc]
    | cons d t' =>
      by_cases hp : p a
      · have hca : c ≠ a := fun he => by rw [he] at hpc; rw [hp] at hpc; exact absurd hpc (by simp)
        have hc' : c ∈ d :: t' := by
          rcases List.mem_cons.mp hc with rfl | h
          · exact absurd rfl hca
          · exact h
        by_cases hd : p d
        · rw [show squashRuns p r (a :: d :: t') = squashRuns p r (d :: t') by
            simp [squashRuns, hp, hd]]
          exact ih c hpc hc'
        · rw [show squashRuns p r (a :: d :: t') = r :: squashRuns p r (d :: t') by
            simp [squashRuns, hp, hd]]
          exact List.mem_cons_of_mem _ (ih c hpc hc')
      · rw [show squashRuns p r (a :: d :: t') = a :: squashRuns p r (d :: t') by
          simp [squashRuns, hp]]
        rcases List.mem_cons.mp hc with rfl | h
        · simp
        · exact List.mem_cons_of_mem _ (ih c hpc h)

theorem mem_dropLeadHy {c : Char} {l : List Char} (h : c ∈ dropLeadHy l) : c ∈ l := by
  rcases l with _ | ⟨a, t⟩
  · simp [dropLeadHy] at h
  · by_cases ha : a = '-'
    · simp only [dropLeadHy, if_pos ha] at h
      exact List.mem_cons_of_mem _ h
    · simpa [dropLeadHy, ha] using h

theorem mem_dropLeadHy_of {c : Char} {l : List Char} (hc : c ≠ '-') (h : c ∈ l) :
    c ∈ dropLeadHy l := by
  rcases l with _ | ⟨a, t⟩
  · simp at h
  · by_cases ha : a = '-'
    · simp only [dropLeadHy, if_pos ha]
      rcases List.mem_cons.mp h with rfl | h'
      · exact absurd ha hc
      · exact h'
    · simpa [dropLeadHy, ha] using h

theorem mem_dropTrailHy {c : Char} {l : List Char} (h : c ∈ dropTrailHy l) : c ∈ l := by
  unfold dropTrailHy at h
  rw [List.mem_reverse] at h
  have := mem_dropLeadHy h
  rwa [List.mem_reverse] at this

theorem mem_dropTrailHy_of {c : Char} {l : List Char} (hc : c ≠ '-') (h : c ∈ l) :
    c ∈ dropTrailHy l := by
  unfold dropTrailHy
  simpa using mem_dropLeadHy_of hc (List.mem_reverse.mpr h)

theorem mem_dropWhile_of_neg (p : Char → Bool) :
    ∀ (l : List Char) (c : Char), p c = false → c ∈ l → c ∈ l.dropWhile p := by
  intro l
  induction l with
  | nil => simp
  | cons a t ih =>
    intro c hpc hc
    by_cases ha : p a
    · rw [List.dropWhile_cons_of_pos ha]
      rcases List.mem_cons.mp hc with rfl | h
      · rw [ha] at hpc; exact absurd hpc (by simp)
      · exact ih c hpc h
    · rwa [List.dropWhile_cons_of_neg ha]

theorem mem_jsTrim_of {c : Char} {s : List Char} (hc : isJsWs c = false) (h : c ∈ s) :
    c ∈ jsTrim s := by
  unfold jsTrim
  rw [List.mem_reverse]
  exact mem_dropWhile_of_neg _ _ _ hc (List.mem_reverse.mpr (mem_dropWhile_of_neg _ _ _ hc h))

theorem mem_of_jsTrim {c : Char} {s : List Char} (h : c ∈ jsTrim s) : c ∈ s := by
  unfold jsTrim at h
  rw [List.mem_reverse] at h
  have h1 := (List.dropWhile_sublist _).mem h
  rw [List.mem_reverse] at h1
  exact (List.dropWhile_sublist _).mem h1

theorem squashRuns_head_of_neg (p : Char → Bool) (r : Char) (d : Char) (t : List Char)
    (hd : p d = false) : (squashRuns p r (d :: t)).head? = some d := by
  cases t with
  | nil => simp [squashRuns, hd]
  | cons e t' => simp [squashRuns, hd]

theorem chain_squashHy :
    ∀ s, List.Chain' (fun a b => ¬(a = '-' ∧ b = '-')) (squashRuns isHyphen '-' s) := by
  intro s
  induction s with
  | nil => simp [squashRuns]
  | cons a t ih =>
    cases t with
    | nil => by_cases hp : isHyphen a <;> simp [squashRuns, hp]
    | cons d t' =>
      by_cases hp : isHyphen a
      · by_cases hd : isHyphen d
        · rwa [show squashRuns isHyphen '-' (a :: d :: t') = squashRuns isHyphen '-' (d :: t') by
            simp [squashRuns, hp, hd]]
        · rw [show squashRuns isHyphen '-' (a :: d :: t') =
              '-' :: squashRuns isHyphen '-' (d :: t') by simp [squashRuns, hp, hd]]
          rw [List.chain'_cons']
          refine ⟨?_, ih⟩
          intro y hy
          rw [squashRuns_head_of_neg _ _ _ _ (by simpa using hd)] at hy
          simp only [Option.mem_def, Option.some.injEq] at hy
          subst hy
          rintro ⟨-, h2⟩
          exact absurd h2 (by simpa [isHyphen] using hd)
      · rw [show squashRuns isHyphen '-' (a :: d :: t') =
            a :: squashRuns isHyphen '-' (d :: t') by simp [squashRuns, hp]]
        rw [List.chain'_cons']
        refine ⟨?_, ih⟩
        intro y hy
        rintro ⟨h1, -⟩
        exact absurd h1 (by simpa [isHyphen] using hp)

theorem dropLeadHy_head {l : List Char}
    (hch : List.Chain' (fun a b => ¬(a = '-' ∧ b = '-')) l) :
    (dropLeadHy l).head? ≠ some '-' := by
  rcases l with _ | ⟨c, t⟩
  · simp [dropLeadHy]
  · by_cases hc : c = '-'
    · subst hc
      intro hhead
      rcases t with _ | ⟨d, t'⟩
      · simp [dropLeadHy] at hhead
      · simp [dropLeadHy] at hhead
        subst hhead
        exact (List.chain'_cons.mp hch).1 ⟨rfl, rfl⟩
    · simp [dropLeadHy, hc]

theorem chain_dropLeadHy {l : List Char}
    (hch : List.Chain' (fun a b => ¬(a = '-' ∧ b = '-')) l) :
    List.Chain' (fun a b => ¬(a = '-' ∧ b = '-')) (dropLeadHy l) := by
  rcases l with _ | ⟨c, t⟩
  · simp [dropLeadHy]
  · by_cases hc : c = '-'
    · simp only [dropLeadHy, if_pos hc]
      exact (List.chain'_cons'.mp hch).2
    · simpa [dropLeadHy, hc] using hch

theorem dropTrailHy_head {l : List Char} (h : l.head? ≠ some '-') :
    (dropTrailHy l).head? ≠ some '-' := by
  rcases l with _ | ⟨c, t⟩
  · simp [dropTrailHy, dropLeadHy]
  · rcases t.eq_nil_or_concat with rfl | ⟨mid, d, rfl⟩
    · simp only [List.head?_cons, ne_eq, Option.some.injEq] at h
      simp [dropTrailHy, dropLeadHy, h]
    · simp only [List.head?_cons, ne_eq, Option.some.injEq] at h
      by_cases hd : d = '-' <;>
        simp [dropTrailHy, dropLeadHy, hd, List.reverse_append, h]

theorem dropTrailHy_last {l : List Char}
    (hch : List.Chain' (fun a b => ¬(a = '-' ∧ b = '-')) l) :
    (dropTrailHy l).getLast? ≠ some '-' := by
  unfold dropTrailHy
  rw [List.getLast?_reverse]
  apply dropLeadHy_head
  rw [List.chain'_reverse]
  exact hch.imp (fun a b hab ⟨h1, h2⟩ => hab ⟨h2, h1⟩)

theorem word_not_ws {c : Char} (h : isWordChar c = true) : isJsWs c = false := by
  simp only [isWordChar, Bool.or_eq_true, Bool.and_eq_true, decide_eq_true_eq,
    beq_iff_eq] at h
  simp only [isJsWs, Bool.or_eq_false_iff, Bool.and_eq_false_iff, beq_eq_false_iff_ne,
    ne_eq, decide_eq_false_iff_not, not_le]
  omega

theorem word_not_hyphen {c : Char} (h : isWordChar c = true) : c ≠ '-' := by
  rintro rfl
  exact absurd h (by decide)

/-- C4 (counterexample): for the heading text consisting of one hyphen,
    the derived id is empty although the text after lowercasing and
    punctuation-stripping is a hyphen — neither empty nor
    all-whitespace — refuting the claim's "empty only if" clause. -/
theorem headingId_empty_counterexample :
    generateHeadingId ['-'] = [] ∧
    stripNonWord (List.map lowerChar ['-']) = ['-'] ∧
    ¬(stripNonWord (List.map lowerChar ['-']) = [] ∨
      (stripNonWord (List.map lowerChar ['-'])).all isJsWs = true) := by decide

/-- C4 (amended): for every heading text the derived id contains only
    lowercase word characters and hyphens and never starts or ends with
    a hyphen; it is empty only if the input, after lowercasing and
    punctuation-stripping, contains no word character at all (i.e. is
    made of whitespace and hyphens only). -/
theorem headingId_shape (text : List Char) :
    (∀ c ∈ generateHeadingId text,
        (isWordChar c = true ∧ ¬(65 ≤ c.toNat ∧ c.toNat ≤ 90)) ∨ c = '-') ∧
    (generateHeadingId text).head? ≠ some '-' ∧
    (generateHeadingId text).getLast? ≠ some '-' ∧
    (generateHeadingId text = [] →
      ∀ c ∈ stripNonWord (text.map lowerChar), isWordChar c = false) := by
  refine ⟨?_, ?_, ?_, ?_⟩
  · intro c hc
    unfold generateHeadingId at hc
    have hc2 := mem_dropLeadHy (mem_dropTrailHy hc)
    rcases mem_squashRuns _ _ _ _ hc2 with rfl | ⟨hc4, hhy⟩
    · exact Or.inr rfl
    · rcases mem_squashRuns _ _ _ _ hc4 with rfl | ⟨hc5, hws⟩
      · exact absurd hhy (by decide)
      · left
        have h5 : c ∈ jsTrim (List.map lowerChar text) ∧
            ((isWordChar c = true ∨ isJsWs c = true) ∨ c = '-') := by
          simpa [stripNonWord] using hc5
        obtain ⟨hmem, hkeep⟩ := h5
        have hnh : c ≠ '-' := by simpa [isHyphen] using hhy
        have hword : isWordChar c = true := by
          rcases hkeep with (hk | hk) | hk
          · exact hk
          · rw [hws] at hk; exact absurd hk (by simp)
          · exact absurd hk hnh
        refine ⟨hword, ?_⟩
        obtain ⟨a, -, rfl⟩ := List.mem_map.mp (mem_of_jsTrim hmem)
        exact lowerChar_not_upper a
  · unfold generateHeadingId
    exact dropTrailHy_head (dropLeadHy_head (chain_squashHy _))
  · unfold generateHeadingId
    exact dropTrailHy_last (chain_dropLeadHy (chain_squashHy _))
  · intro hid c hc
    by_contra hword'
    have hword : isWordChar c = true := by
      cases hw : isWordChar c
      · exact absurd hw hword'
      · rfl
    have h1 : isJsWs c = false := word_not_ws hword
    have h2 : c ≠ '-' := word_not_hyphen hword
    have h0 : (∃ a ∈ text, lowerChar a = c) ∧
        ((isWordChar c = true ∨ isJsWs c = true) ∨ c = '-') := by
      simpa [stripNonWord] using hc
    obtain ⟨⟨a, ha, hac⟩, -⟩ := h0
    have hmem0 : c ∈ text.map lowerChar := List.mem_map.mpr ⟨a, ha, hac⟩
    have htrim : c ∈ jsTrim (text.map lowerChar) := mem_jsTrim_of h1 hmem0
    have hfilt : c ∈ stripNonWord (jsTrim (text.map lowerChar)) := by
      simp only [stripNonWord]
      exact List.mem_filter.mpr ⟨htrim, by simp [hword]⟩
    have hsq1 := mem_squashRuns_of isJsWs '-' _ c h1 hfilt
    have hsq2 := mem_squashRuns_of isHyphen '-' _ c (by simpa [isHyphen] using h2) hsq1
    have hfin : c ∈ generateHeadingId text := by
      unfold generateHeadingId
      exact mem_dropTrailHy_of h2 (mem_dropLeadHy_of h2 hsq2)
    rw [hid] at hfin
    exact absurd hfin (List.not_mem_nil c)

/-- Witness for the amended C4 statement at a concrete heading text. -/
theorem headingId_shape_witness :
    (∀ c ∈ generateHeadingId ("A b!".data),
        (isWordChar c = true ∧ ¬(65 ≤ c.toNat ∧ c.toNat ≤ 90)) ∨ c = '-') ∧
    (generateHeadingId ("A b!".data)).head? ≠ some '-' ∧
    (generateHeadingId ("A b!".data)).getLast? ≠ some '-' ∧
    (generateHeadingId ("A b!".data) = [] →
      ∀ c ∈ stripNonWord (("A b!".data).map lowerChar), isWordChar c = false) :=
  headingId_shape ("A b!".data)

theorem scanLines_append (st : ScanState) (xs ys : List (List Char)) :
    scanLines st (xs ++ ys) =
      ((scanLines (scanLines st xs).1 ys).1,
       (scanLines st xs).2 ++ (scanLines (scanLines st xs).1 ys).2) := by
  induction xs generalizing st with
  | nil => simp [scanLines]
  | cons l ls ih => simp [scanLines, ih]

theorem renderLine_nonfence (st : ScanState) (l : List Char)
    (hcb : st.inCodeBlock = false) (hf : isFenceLine l = false) :
    renderLine st l = (st, classifyLine l) := by
  simp [renderLine, hf, hcb]

theorem classifyLine_no_codeBlock (l : List Char) :
    ∀ n ∈ classifyLine l, isCodeBlockNode n = false := by
  intro n hn
  unfold classifyLine at hn
  repeat' split at hn
  all_goals simp_all [isCodeBlockNode]

theorem scanLines_nofence (ls : List (List Char)) (st : ScanState)
    (hcb : st.inCodeBlock = false) (hf : ∀ l ∈ ls, isFenceLine l = false) :
    scanLines st ls = (st, (ls.map classifyLine).flatten) := by
  induction ls with
  | nil => simp [scanLines]
  | cons l t ih =>
    have h1 := renderLine_nonfence st l hcb (hf l (by simp))
    simp [scanLines, h1, ih (fun x hx => hf x (by simp [hx]))]

theorem flatten_classify_no_codeBlock (ls : List (List Char)) :
    ∀ n ∈ (ls.map classifyLine).flatten, isCodeBlockNode n = false := by
  intro n hn
  obtain ⟨l', hl', hnl⟩ := List.mem_flatten.mp hn
  obtain ⟨l, _, rfl⟩ := List.mem_map.mp hl'
  exact classifyLine_no_codeBlock l n hnl

theorem scanLines_inblock (ls : List (List Char)) :
    ∀ acc lang, (∀ l ∈ ls, isFenceLine l = false) →
    scanLines ⟨true, acc, lang⟩ ls = (⟨true, acc ++ ls, lang⟩, []) := by
  induction ls with
  | nil => simp [scanLines]
  | cons l t ih =>
    intro acc lang hf
    have hfl : isFenceLine l = false := hf l (by simp)
    simp only [scanLines, renderLine, hfl, Bool.false_eq_true, if_false, if_true]
    rw [ih (acc ++ [l]) lang (fun x hx => hf x (by simp [hx]))]
    simp

theorem renderLine_open (st : ScanState) (l : List Char)
    (hf : isFenceLine l = true) (hcb : st.inCodeBlock = false) :
    renderLine st l = (⟨true, [], fenceLang l⟩, []) := by
  simp [renderLine, hf, hcb]

theorem renderLine_close (acc : List (List Char)) (lang l : List Char)
    (hf : isFenceLine l = true) :
    renderLine ⟨true, acc, lang⟩ l =
      (⟨false, [], []⟩, [.codeBlock ⟨lang⟩ ⟨joinNL acc⟩]) := by
  simp [renderLine, hf]

theorem jsReplaceFirstL_prefix (pat rest repl : List Char) :
    jsReplaceFirstL (pat ++ rest) pat repl = repl ++ rest := by
  have hp : pat.isPrefixOf (pat ++ rest) = true := by
    rw [List.isPrefixOf_iff_prefix]
    exact ⟨rest, rfl⟩
  unfold jsReplaceFirstL
  rw [if_pos hp, List.drop_left]

theorem fenceLang_tag (o tag : List Char) (ho : jsTrim o = fenceMarker ++ tag) :
    fenceLang o = tag.map lowerChar := by
  unfold fenceLang
  rw [ho, jsReplaceFirstL_prefix]
  simp

theorem isFenceLine_of_tag (o tag : List Char) (ho : jsTrim o = fenceMarker ++ tag) :
    isFenceLine o = true := by
  unfold isFenceLine
  rw [ho, List.isPrefixOf_iff_prefix]
  exact ⟨tag, rfl⟩

/-- C5: a document whose line list contains exactly one well-formed
    fenced block — non-fence lines, an opening fence line whose trimmed
    form is the marker followed by the language tag, non-fence interior
    lines, a closing fence line, non-fence trailing lines — produces
    exactly one `CodeBlock` node, whose language is the tag lowercased
    and whose content is the interior joined by newline, verbatim. -/
theorem fence_roundtrip (B I A : List (List Char)) (o c tag : List Char)
    (hB : ∀ l ∈ B, isFenceLine l = false)
    (hI : ∀ l ∈ I, isFenceLine l = false)
    (hA : ∀ l ∈ A, isFenceLine l = false)
    (ho : jsTrim o = fenceMarker ++ tag)
    (hc : isFenceLine c = true) :
    ((scanLines ⟨false, [], []⟩ (B ++ o :: (I ++ c :: A))).2).filter isCodeBlockNode =
      [.codeBlock ⟨tag.map lowerChar⟩ ⟨joinNL I⟩] := by
  have ho' := isFenceLine_of_tag o tag ho
  have eB := scanLines_nofence B ⟨false, [], []⟩ rfl hB
  have eI := scanLines_inblock I [] (fenceLang o) hI
  have eA := scanLines_nofence A ⟨false, [], []⟩ rfl hA
  have eo := renderLine_open ⟨false, [], []⟩ o ho' rfl
  have ec := renderLine_close I (fenceLang o) c hc
  rw [scanLines_append, eB]
  simp only [scanLines, eo, List.nil_append]
  rw [scanLines_append, eI]
  simp only [scanLines, List.nil_append]
  rw [ec]
  dsimp only
  rw [eA]
  simp only [List.nil_append, List.filter_append]
  have hBnil : ((B.map classifyLine).flatten).filter isCodeBlockNode = [] :=
    List.filter_eq_nil_iff.mpr (fun a ha => by simp [flatten_classify_no_codeBlock B a ha])
  have hAnil : ((A.map classifyLine).flatten).filter isCodeBlockNode = [] :=
    List.filter_eq_nil_iff.mpr (fun a ha => by simp [flatten_classify_no_codeBlock A a ha])
  rw [hBnil, hAnil, fenceLang_tag o tag ho]
  simp [List.filter_cons, isCodeBlockNode]

/-- Witness for C5 at a concrete document. -/
theorem fence_roundtrip_witness :
    ((scanLines ⟨false, [], []⟩
        (["hello".data] ++ "```JS".data ::
          (["const a = 1;".data] ++ "```".data :: ["bye".data]))).2).filter
      isCodeBlockNode =
    [.codeBlock ⟨("JS".data).map lowerChar⟩ ⟨joinNL ["const a = 1;".data]⟩] :=
  fence_roundtrip ["hello".data] ["const a = 1;".data] ["bye".data]
    "```JS".data "```".data "JS".data
    (by decide) (by decide) (by decide) (by decide) (by decide)

/-- C6: when a fence is opened and never closed, the scan of the whole
    document equals the scan of the lines before the fence: the opening
    fence line and every later line produce no node at all, no
    `CodeBlock` is emitted, and scanning still terminates normally. -/
theorem unterminated_fence_swallowed (B R : List (List Char)) (o : List Char)
    (hB : ∀ l ∈ B, isFenceLine l = false)
    (ho : isFenceLine o = true)
    (hR : ∀ l ∈ R, isFenceLine l = false) :
    (scanLines ⟨false, [], []⟩ (B ++ o :: R)).2 = (scanLines ⟨false, [], []⟩ B).2 ∧
    ∀ n ∈ (scanLines ⟨false, [], []⟩ (B ++ o :: R)).2, isCodeBlockNode n = false := by
  have eB := scanLines_nofence B ⟨false, [], []⟩ rfl hB
  have eo := renderLine_open ⟨false, [], []⟩ o ho rfl
  have eR := scanLines_inblock R [] (fenceLang o) hR
  have e1 : (scanLines ⟨false, [], []⟩ (B ++ o :: R)).2 = (B.map classifyLine).flatten := by
    rw [scanLines_append, eB]
    simp only [scanLines, eo, List.nil_append]
    rw [eR]
    simp
  refine ⟨by rw [e1, eB], ?_⟩
  rw [e1]
  exact flatten_classify_no_codeBlock B

/-- Witness for C6 at a concrete document (the spec's unterminated-fence
    scenario preceded by one paragraph line). -/
theorem unterminated_fence_swallowed_witness :
    (scanLines ⟨false, [], []⟩ (["hi".data] ++ "```js".data ::
        ["const a = 1;".data, []])).2 =
      (scanLines ⟨false, [], []⟩ ["hi".data]).2 ∧
    ∀ n ∈ (scanLines ⟨false, [], []⟩ (["hi".data] ++ "```js".data ::
        ["const a = 1;".data, []])).2, isCodeBlockNode n = false :=
  unterminated_fence_swallowed ["hi".data] ["const a = 1;".data, []] "```js".data
    (by decide) (by decide) (by decide)

theorem jsTrim_head {c : Char} (t : List Char) (hc : isJsWs c = false) :
    ∃ u, jsTrim (c :: t) = c :: u := by
  have hc' : ¬ isJsWs c = true := by simp [hc]
  unfold jsTrim
  rw [List.dropWhile_cons_of_neg hc', List.reverse_cons, List.dropWhile_append]
  by_cases he : (List.dropWhile isJsWs t.reverse).isEmpty
  · rw [if_pos he, List.dropWhile_cons_of_neg hc']
    exact ⟨[], by simp⟩
  · rw [if_neg he]
    exact ⟨(List.dropWhile isJsWs t.reverse).reverse, by simp⟩

theorem isPrefixOf_cons_neq {a b : Char} (h : (a == b) = false) (as bs : List Char) :
    (a :: as).isPrefixOf (b :: bs) = false := by
  simp only [List.isPrefixOf, h, Bool.false_and]

theorem isFenceLine_quote (t : List Char) : isFenceLine ('>' :: ' ' :: t) = false := by
  obtain ⟨u, hu⟩ := jsTrim_head (c := '>') (' ' :: t) (by decide)
  unfold isFenceLine
  rw [hu, show fenceMarker = btk :: [btk, btk] from rfl]
  exact isPrefixOf_cons_neq (by decide) _ _

/-- C7 (counterexample): for the line quoting an inline code span, the
    blockquote's spans are a plain-text rendering of the raw remainder,
    not the Inline Formatter's output for it (which would be an
    `InlineCode` span): blockquotes only receive the bold split. -/
theorem blockquote_inline_counterexample :
    (renderLine ⟨false, [], []⟩ ("> `x`".data)).2 =
      [.blockquote [.plainText "`x`"]] ∧
    formatInlineStyles "`x`" = [.inlineCode "x"] ∧
    [InlineSpan.plainText "`x`"] ≠ [InlineSpan.inlineCode "x"] := by decide

/-- C7 (amended): for every line outside an open code block that starts
    with the blockquote marker, the scanner emits a `Blockquote` whose
    spans come from splitting the remainder on the two-star separator
    only — odd segments bold, even segments plain — not from the
    three-pass Inline Formatter. -/
theorem blockquote_bold_only (st : ScanState) (t : List Char)
    (hcb : st.inCodeBlock = false) :
    renderLine st ('>' :: ' ' :: t) = (st, [.blockquote (quoteSpans t)]) := by
  have hf : isFenceLine ('>' :: ' ' :: t) = false := isFenceLine_quote t
  rw [renderLine_nonfence st _ hcb hf]
  have h1 : ("# ".data).isPrefixOf ('>' :: ' ' :: t) = false :=
    isPrefixOf_cons_neq (by decide) _ _
  have h2 : ("## ".data).isPrefixOf ('>' :: ' ' :: t) = false :=
    isPrefixOf_cons_neq (by decide) _ _
  have h3 : ("### ".data).isPrefixOf ('>' :: ' ' :: t) = false :=
    isPrefixOf_cons_neq (by decide) _ _
  have h4 : ("#### ".data).isPrefixOf ('>' :: ' ' :: t) = false :=
    isPrefixOf_cons_neq (by decide) _ _
  have hq : ("> ".data).isPrefixOf ('>' :: ' ' :: t) = true := by
    rw [List.isPrefixOf_iff_prefix]
    exact ⟨t, rfl⟩
  have hrepl : jsReplaceFirstL ('>' :: ' ' :: t) ("> ".data) [] = t := by
    have : ('>' :: ' ' :: t) = "> ".data ++ t := rfl
    rw [this, jsReplaceFirstL_prefix]
    rfl
  unfold classifyLine
  rw [h1, h2, h3, h4, hq]
  simp [hrepl]

/-- Witness for the amended C7 statement at a concrete quote line. -/
theorem blockquote_bold_only_witness :
    renderLine ⟨false, [], []⟩ ('>' :: ' ' :: "**b** x".data) =
      (⟨false, [], []⟩, [.blockquote (quoteSpans "**b** x".data)]) :=
  blockquote_bold_only ⟨false, [], []⟩ ("**b** x".data) rfl

theorem dropWhile_eq_self_of (p : Char → Bool) (l : List Char)
    (h : ∀ c ∈ l, p c = false) : l.dropWhile p = l := by
  cases l with
  | nil => rfl
  | cons a t => exact List.dropWhile_cons_of_neg (by simp [h a (by simp)])

theorem jsTrim_eq_self (l : List Char) (h : ∀ c ∈ l, isJsWs c = false) :
    jsTrim l = l := by
  unfold jsTrim
  rw [dropWhile_eq_self_of _ _ h,
    dropWhile_eq_self_of _ _ (fun c hc => h c (List.mem_reverse.mp hc)),
    List.reverse_reverse]

/-- C8 (counterexample): the line of three hyphens followed by a space
    satisfies every antecedent of the claim — it matches none of the
    fence, header, blockquote or list rules and its trimmed form is a
    run of three rule characters — yet the scanner emits a `Paragraph`,
    not a `HorizontalRule`, because the rule regex is applied to the raw
    untrimmed line. -/
theorem hr_trim_counterexample :
    (isFenceLine ("--- ".data) = false ∧
     ("# ".data).isPrefixOf ("--- ".data) = false ∧
     ("## ".data).isPrefixOf ("--- ".data) = false ∧
     ("### ".data).isPrefixOf ("--- ".data) = false ∧
     ("#### ".data).isPrefixOf ("--- ".data) = false ∧
     ("> ".data).isPrefixOf ("--- ".data) = false ∧
     uListMatch ("--- ".data) = none ∧
     oListMatch ("--- ".data) = none ∧
     isHrLine (jsTrim ("--- ".data)) = true) ∧
    renderLine ⟨false, [], []⟩ ("--- ".data) =
      (⟨false, [], []⟩, [.paragraph (formatInlineStyles "--- ")]) ∧
    [BlockNode.paragraph (formatInlineStyles "--- ")] ≠ [BlockNode.horizontalRule] := by
  decide

/-- C8 (amended): for every line outside an open code block whose raw,
    untrimmed form consists of three or more repetitions of one
    character drawn from the three rule characters, the scanner emits a
    `HorizontalRule` node. -/
theorem hr_untrimmed (st : ScanState) (line : List Char)
    (hcb : st.inCodeBlock = false) (hr : isHrLine line = true) :
    renderLine st line = (st, [.horizontalRule]) := by
  have hparts : 3 ≤ line.length ∧
      (((∀ c ∈ line, c = '*') ∨ (∀ c ∈ line, c = '-')) ∨ (∀ c ∈ line, c = '_')) := by
    simpa [isHrLine, List.all_eq_true] using hr
  obtain ⟨hlen, hallor⟩ := hparts
  have hex : ∃ ch, ((ch = '*' ∨ ch = '-' ∨ ch = '_') ∧ ∀ c ∈ line, c = ch) := by
    rcases hallor with (h | h) | h
    exacts [⟨'*', Or.inl rfl, h⟩, ⟨'-', Or.inr (Or.inl rfl), h⟩, ⟨'_', Or.inr (Or.inr rfl), h⟩]
  obtain ⟨ch, hch, hall⟩ := hex
  have hchws : isJsWs ch = false := by rcases hch with rfl | rfl | rfl <;> decide
  have hnws : ∀ c ∈ line, isJsWs c = false := fun c hc => by rw [hall c hc]; exact hchws
  have hshape : ∃ t2, line = ch :: ch :: t2 := by
    rcases line with _ | ⟨a, t1⟩
    · simp at hlen
    rcases t1 with _ | ⟨b, t2⟩
    · simp at hlen
    exact ⟨t2, by rw [hall a (by simp), hall b (by simp)]⟩
  obtain ⟨t2, rfl⟩ := hshape
  have hfence : isFenceLine (ch :: ch :: t2) = false := by
    unfold isFenceLine
    rw [jsTrim_eq_self _ hnws, show fenceMarker = btk :: [btk, btk] from rfl]
    exact isPrefixOf_cons_neq (by rcases hch with rfl | rfl | rfl <;> decide) _ _
  rw [renderLine_nonfence st _ hcb hfence]
  have h1 : ("# ".data).isPrefixOf (ch :: ch :: t2) = false :=
    isPrefixOf_cons_neq (by rcases hch with rfl | rfl | rfl <;> decide) _ _
  have h2 : ("## ".data).isPrefixOf (ch :: ch :: t2) = false :=
    isPrefixOf_cons_neq (by rcases hch with rfl | rfl | rfl <;> decide) _ _
  have h3 : ("### ".data).isPrefixOf (ch :: ch :: t2) = false :=
    isPrefixOf_cons_neq (by rcases hch with rfl | rfl | rfl <;> decide) _ _
  have h4 : ("#### ".data).isPrefixOf (ch :: ch :: t2) = false :=
    isPrefixOf_cons_neq (by rcases hch with rfl | rfl | rfl <;> decide) _ _
  have h5 : ("> ".data).isPrefixOf (ch :: ch :: t2) = false :=
    isPrefixOf_cons_neq (by rcases hch with rfl | rfl | rfl <;> decide) _ _
  have hu : uListMatch (ch :: ch :: t2) = none := by
    unfold uListMatch
    rw [dropWhile_eq_self_of _ _ hnws]
    simp [hchws]
  have hol : oListMatch (ch :: ch :: t2) = none := by
    have hnd : ¬(Char.isDigit ch = true) := by rcases hch with rfl | rfl | rfl <;> decide
    unfold oListMatch
    rw [dropWhile_eq_self_of _ _ hnws]
    simp [List.takeWhile_cons_of_neg hnd]
  unfold classifyLine
  rw [h1, h2, h3, h4, h5, hu, hol]
  simp [hr]

/-- Witness for the amended C8 statement at a concrete rule line. -/
theorem hr_untrimmed_witness :
    renderLine ⟨false, [], []⟩ ("---".data) =
      (⟨false, [], []⟩, [.horizontalRule]) :=
  hr_untrimmed ⟨false, [], []⟩ ("---".data) rfl (by decide)

theorem elementId_none (n : BlockNode) : elementId n = none := by cases n <;> rfl

theorem lookupById_none (ns : List BlockNode) (tg : String) : lookupById ns tg = none := by
  apply List.find?_eq_none.mpr
  intro x hx
  simp [elementId_none]

/-- C9: the renderer attaches no id attribute to any element it emits,
    so the navigator's lookup of any target id never resolves within the
    renderer's output; activation is a silent no-op and the active
    heading id stays at its initial empty value after any sequence of
    outline clicks. -/
theorem outline_never_resolves (content : String) (target : String) (clicks : List String) :
    lookupById (MarkdownRenderer content) target = none ∧
    clicks.foldl (fun a t => scrollToHeading (MarkdownRenderer content) a t) "" = "" := by
  refine ⟨lookupById_none _ _, ?_⟩
  have hstep : ∀ (a t : String), scrollToHeading (MarkdownRenderer content) a t = a := by
    intro a t
    unfold scrollToHeading
    rw [lookupById_none]
  induction clicks with
  | nil => rfl
  | cons c cs ih => rw [List.foldl_cons, hstep]; exact ih

/-- C10: the heading extractor is fence-unaware: on the document whose
    only heading-shaped line sits inside a fenced code block, the
    extractor emits a `HeadingEntry` for it while the scanner classifies
    the same line as code-block content and emits no `Heading` node at
    all. -/
theorem extractor_sees_fenced_heading :
    extractHeadings "```\n# hidden\n```" = [⟨"hidden", 1, "hidden"⟩] ∧
    MarkdownRenderer "```\n# hidden\n```" = [.codeBlock "" "# hidden"] ∧
    (∀ n ∈ MarkdownRenderer "```\n# hidden\n```", isHeadingNode n = false) := by decide
